import Mathlib

set_option maxRecDepth 1000000

/-!
Shallow embedding of `src/event_horizon.py` (the "Arithmetic Event Horizon" probe).

The program is Python executed under numba `@njit`, so all arithmetic inside
`power_mod` and `analyze_physics` is 64-bit signed integer arithmetic with
silent two complement wraparound; `%` and `//` keep the Python sign
convention (result of `z % m` lies in `[0, m)` for `m > 0`), which is exactly
`Int.emod` / `Int.ediv` in Lean.  We model an int64 operation by applying
`wrap` (reduction into `[-2^63, 2^63)`) to the mathematical result.

Floating point: the accumulator `bsd_score` and the table `LOGS2 = log2(PRIMES)`
are float64 values.  Bit-level IEEE-754 arithmetic is not modelled; instead the
analyzer is parameterized over an arbitrary carrier `α` with abstract operations
`fadd`, `fmul`, `fdiv`, an integer conversion `fofInt`, a zero `fzero`, and a
weight table `w : ℕ → α` standing for `LOGS2`.  Instantiating `α` with IEEE-754
doubles recovers the machine computation; theorems quantified over all such
interpretations (with `fadd` not assumed associative or commutative) therefore
capture the exact shape and order of the floating computation.
-/

/-- Two complement wraparound of a 64-bit signed integer: reduce into
`[-2^63, 2^63)`, congruent mod `2^64`.  Models numba int64 overflow. -/
def wrap (z : ℤ) : ℤ := (z + 2 ^ 63) % 2 ^ 64 - 2 ^ 63

/-- The table size `PRIMES_COUNT = 400` from the source. -/
def PRIMES_COUNT : ℕ := 400

/-- The prime table of the source: `list(sieve.primerange(2, 3000))[:400]`,
i.e. the first 400 primes in ascending order (the last one is 2741), spelled
out as the literal list of values the program precomputes at startup. -/
def PRIMES : List ℕ :=
  [2, 3, 5, 7, 11, 13, 17, 19, 23, 29, 31, 37, 41, 43, 47, 53, 59, 61, 67, 71,
   73, 79, 83, 89, 97, 101, 103, 107, 109, 113, 127, 131, 137, 139, 149, 151,
   157, 163, 167, 173, 179, 181, 191, 193, 197, 199, 211, 223, 227, 229, 233,
   239, 241, 251, 257, 263, 269, 271, 277, 281, 283, 293, 307, 311, 313, 317,
   331, 337, 347, 349, 353, 359, 367, 373, 379, 383, 389, 397, 401, 409, 419,
   421, 431, 433, 439, 443, 449, 457, 461, 463, 467, 479, 487, 491, 499, 503,
   509, 521, 523, 541, 547, 557, 563, 569, 571, 577, 587, 593, 599, 601, 607,
   613, 617, 619, 631, 641, 643, 647, 653, 659, 661, 673, 677, 683, 691, 701,
   709, 719, 727, 733, 739, 743, 751, 757, 761, 769, 773, 787, 797, 809, 811,
   821, 823, 827, 829, 839, 853, 857, 859, 863, 877, 881, 883, 887, 907, 911,
   919, 929, 937, 941, 947, 953, 967, 971, 977, 983, 991, 997, 1009, 1013,
   1019, 1021, 1031, 1033, 1039, 1049, 1051, 1061, 1063, 1069, 1087, 1091,
   1093, 1097, 1103, 1109, 1117, 1123, 1129, 1151, 1153, 1163, 1171, 1181,
   1187, 1193, 1201, 1213, 1217, 1223, 1229, 1231, 1237, 1249, 1259, 1277,
   1279, 1283, 1289, 1291, 1297, 1301, 1303, 1307, 1319, 1321, 1327, 1361,
   1367, 1373, 1381, 1399, 1409, 1423, 1427, 1429, 1433, 1439, 1447, 1451,
   1453, 1459, 1471, 1481, 1483, 1487, 1489, 1493, 1499, 1511, 1523, 1531,
   1543, 1549, 1553, 1559, 1567, 1571, 1579, 1583, 1597, 1601, 1607, 1609,
   1613, 1619, 1621, 1627, 1637, 1657, 1663, 1667, 1669, 1693, 1697, 1699,
   1709, 1721, 1723, 1733, 1741, 1747, 1753, 1759, 1777, 1783, 1787, 1789,
   1801, 1811, 1823, 1831, 1847, 1861, 1867, 1871, 1873, 1877, 1879, 1889,
   1901, 1907, 1913, 1931, 1933, 1949, 1951, 1973, 1979, 1987, 1993, 1997,
   1999, 2003, 2011, 2017, 2027, 2029, 2039, 2053, 2063, 2069, 2081, 2083,
   2087, 2089, 2099, 2111, 2113, 2129, 2131, 2137, 2141, 2143, 2153, 2161,
   2179, 2203, 2207, 2213, 2221, 2237, 2239, 2243, 2251, 2267, 2269, 2273,
   2281, 2287, 2293, 2297, 2309, 2311, 2333, 2339, 2341, 2347, 2351, 2357,
   2371, 2377, 2381, 2383, 2389, 2393, 2399, 2411, 2417, 2423, 2437, 2441,
   2447, 2459, 2467, 2473, 2477, 2503, 2521, 2531, 2539, 2543, 2549, 2551,
   2557, 2579, 2591, 2593, 2609, 2617, 2621, 2633, 2647, 2657, 2659, 2663,
   2671, 2677, 2683, 2687, 2689, 2693, 2699, 2707, 2711, 2713, 2719, 2729,
   2731, 2741]

/-- Loop of `power_mod`, made structurally recursive on a fuel argument.
One step of the source loop `while exp > 0`: if `exp` is odd,
`res = (res * base) % mod` (int64 product, hence `wrap`); then
`base = (base * base) % mod` and `exp >>= 1` (floor halving of a positive
int).  With fuel `exp.toNat` the fuel never runs out before the loop
condition `exp > 0` fails, since `exp` at least halves each step. -/
def powerModLoop : ℕ → ℤ → ℤ → ℤ → ℤ → ℤ
  | 0, res, _, _, _ => res
  | fuel + 1, res, base, exp, m =>
    if 0 < exp then
      powerModLoop fuel (if exp % 2 = 1 then wrap (res * base) % m else res)
        (wrap (base * base) % m) (exp / 2) m
    else res

/-- The function `power_mod(base, exp, mod)` of the source: `res = 1`,
`base %= mod`, then the square-and-multiply loop. -/
def power_mod (base exp m : ℤ) : ℤ :=
  powerModLoop exp.toNat 1 (base % m) exp m

/-- The value `fx = (x*x*x + a*x + b) % p` computed in the inner residue loop
of `analyze_physics`, with every intermediate int64 operation wrapped:
`t1 = x*x`, `t2 = t1*x`, `t3 = a*x`, `t4 = t2 + t3`, `t5 = t4 + b`, then
`t5 % p` (Python sign convention, so the result lies in `[0, p)`). -/
def fxVal (a b x p : ℤ) : ℤ :=
  wrap (wrap (wrap (wrap (x * x) * x) + wrap (a * x)) + b) % p

/-- The per-residue contribution to `ls_sum` in `analyze_physics`: `0` when
`fx == 0`, otherwise `val = power_mod(fx, (p-1)//2, p)` remapped by
`if val == p - 1: val = -1`. -/
def legendreVal (a b p x : ℤ) : ℤ :=
  let fx := fxVal a b x p
  if fx = 0 then 0
  else
    let v := power_mod fx ((p - 1) / 2) p
    if v = p - 1 then -1 else v

/-- The accumulator `ls_sum`: starting from `0`, add the per-residue value for
every `x in range(p)` in ascending order. -/
def ls_sum (a b p : ℤ) : ℤ :=
  (List.range p.toNat).foldl (fun (s : ℤ) (x : ℕ) => s + legendreVal a b p (x : ℤ)) 0

/-- The local trace `ap = -ls_sum` of `analyze_physics`. -/
def ap (a b p : ℤ) : ℤ := -(ls_sum a b p)

/-- The local group order `Np = p + 1 - ap` of `analyze_physics`. -/
def Np (a b p : ℤ) : ℤ := p + 1 - ap a b p

/-- The glide loop of `analyze_physics`, structurally recursive on fuel.
The source loop is `while curr > 1 and steps < 300`, body: halve an even
`curr` (arithmetic shift), else `curr = 3*curr + 1` (int64, hence `wrap`);
`steps += 1`; `if curr < Np: break`.  The fuel starts at 300 with
`steps = 0` and decreases in lockstep with `steps` increasing, so
`fuel = 0` is exactly the cap condition `steps == 300`. -/
def glideLoop (start : ℤ) : ℤ → ℕ → ℕ → ℕ
  | _, steps, 0 => steps
  | curr, steps, fuel + 1 =>
    if 1 < curr then
      let c := if curr % 2 = 0 then curr / 2 else wrap (3 * curr + 1)
      if c < start then steps + 1 else glideLoop start c (steps + 1) fuel
    else steps

/-- The glide value of a starting point: run the loop from `curr = Np`,
`steps = 0`, cap 300. -/
def glide (start : ℤ) : ℕ := glideLoop start start 0 300

/-- One iteration of the main loop of `analyze_physics`, acting on the state
`(bsd_score, max_glide)` for the pair `ip = (i, PRIMES[i])`:
`bsd_score += (ap * LOGS2[i]) / p` in float64 (modelled by the abstract
operations), and `max_glide = max(max_glide, glide of Np)` via the source
conditional `if steps > max_glide: max_glide = steps`. -/
def analyzeStep {α : Type} (fadd fmul fdiv : α → α → α) (fofInt : ℤ → α)
    (w : ℕ → α) (a b : ℤ) (st : α × ℕ) (ip : ℕ × ℕ) : α × ℕ :=
  (fadd st.1 (fdiv (fmul (fofInt (ap a b (ip.2 : ℤ))) (w ip.1)) (fofInt (ip.2 : ℤ))),
   let steps := glide (Np a b (ip.2 : ℤ))
   if st.2 < steps then steps else st.2)

/-- The function `analyze_physics(a, b)` of the source: starting from
`bsd_score = 0.0` and `max_glide = 0`, fold the loop body over
`i in range(PRIMES_COUNT)` with `p = PRIMES[i]` in ascending index order
(`PRIMES.enum` is exactly the list of pairs `(i, PRIMES[i])` for
`i = 0..399`).  Float64 arithmetic and the `LOGS2` table are abstracted as
the parameters `fadd fmul fdiv fofInt fzero w`. -/
def analyze_physics {α : Type} (fadd fmul fdiv : α → α → α) (fofInt : ℤ → α)
    (fzero : α) (w : ℕ → α) (a b : ℤ) : α × ℕ :=
  PRIMES.enum.foldl (analyzeStep fadd fmul fdiv fofInt w a b) (fzero, 0)

/-- Modelled from the spec: the analytic score as the spec describes it in
section 4.3, a single left fold, in ascending prime-index order, of the
per-prime terms `(ap * log2 p) / p` starting from zero. -/
def scoreSpec {α : Type} (fadd fmul fdiv : α → α → α) (fofInt : ℤ → α)
    (fzero : α) (w : ℕ → α) (a b : ℤ) : α :=
  (PRIMES.enum.map
    (fun ip => fdiv (fmul (fofInt (ap a b (ip.2 : ℤ))) (w ip.1)) (fofInt (ip.2 : ℤ)))).foldl
    fadd fzero

/-- Modelled from the spec: the dynamic resistance as the spec describes it,
the maximum over the prime table of the per-prime glide values. -/
def resistSpec (a b : ℤ) : ℕ :=
  (PRIMES.map (fun p => glide (Np a b (p : ℤ)))).foldl max 0

/-- Modelled from the spec: the SignatureResult as a pair of the two
independently described signatures. -/
def analyzeSpec {α : Type} (fadd fmul fdiv : α → α → α) (fofInt : ℤ → α)
    (fzero : α) (w : ℕ → α) (a b : ℤ) : α × ℕ :=
  (scoreSpec fadd fmul fdiv fofInt fzero w a b, resistSpec a b)

/-- The three classification labels printed by `probe_manual`. -/
inductive Classification where
  | highRank
  | lowRank
  | indeterminate
deriving DecidableEq

/-- The classification branch of `probe_manual`: the thresholds are literal
float constants compared to the score; the comparisons on the exactly
representable values involved coincide with rational comparisons, so the
score is modelled as a rational.  Source: `if score < -25.0 and glide > 65`,
`elif score > -10.0`, `else`. -/
def classify_probe (score : ℚ) (g : ℕ) : Classification :=
  if score < -25 ∧ 65 < g then .highRank
  else if -10 < score then .lowRank
  else .indeterminate

/-! ## Basic facts about the embedding -/

/-- The table has exactly `PRIMES_COUNT = 400` entries, so folding over
`PRIMES.enum` is folding over `i in range(PRIMES_COUNT)` with `p = PRIMES[i]`. -/
theorem PRIMES_length : PRIMES.length = PRIMES_COUNT := rfl

/-- Every entry of the table lies in `[2, 2741]`. -/
theorem PRIMES_mem_bounds : ∀ p ∈ PRIMES, 2 ≤ p ∧ p ≤ 2741 := by decide

/-- Wraparound is the identity on values already inside the int64 range. -/
theorem wrap_eq_self {z : ℤ} (h1 : -2 ^ 63 ≤ z) (h2 : z < 2 ^ 63) : wrap z = z := by
  unfold wrap
  have h0 : 0 ≤ z + 2 ^ 63 := by linarith
  have h3 : z + 2 ^ 63 < 2 ^ 64 := by
    have : (2 : ℤ) ^ 64 = 2 ^ 63 + 2 ^ 63 := by norm_num
    linarith
  rw [Int.emod_eq_of_lt h0 h3]
  ring

/-! ## Correctness of power_mod for moduli whose squares fit in int64 -/

/-- The loop of `power_mod` never returns a negative value when the incoming
accumulator is nonnegative and the modulus is nonzero. -/
theorem powerModLoop_nonneg : ∀ (fuel : ℕ) (res base exp m : ℤ), 0 ≤ res → m ≠ 0 →
    0 ≤ powerModLoop fuel res base exp m := by
  intro fuel
  induction fuel with
  | zero => intro res base exp m h _; simpa [powerModLoop] using h
  | succ n ih =>
    intro res base exp m h hm
    unfold powerModLoop
    split
    · refine ih _ _ _ _ ?_ hm
      split
      · exact Int.emod_nonneg _ hm
      · exact h
    · exact h

/-- The result of `power_mod` is nonnegative for a nonzero modulus. -/
theorem power_mod_nonneg (base exp m : ℤ) (hm : m ≠ 0) : 0 ≤ power_mod base exp m :=
  powerModLoop_nonneg _ 1 _ _ _ (by norm_num) hm

/-- Pulling an inner reduction out of a power modulo `n`. -/
theorem int_pow_emod (a : ℤ) (k : ℕ) (n : ℤ) : a ^ k % n = (a % n) ^ k % n := by
  induction k with
  | zero => simp
  | succ k ih =>
    rw [pow_succ, pow_succ, Int.mul_emod, Int.mul_emod ((a % n) ^ k), ih,
      Int.emod_emod_of_dvd _ dvd_rfl]

/-- Loop invariant for `powerModLoop`: when the accumulator and the base are
reduced below a modulus whose square of the predecessor fits in int64, no
int64 product overflows and the loop computes `res * base ^ exp % m`. -/
theorem powerModLoop_eq : ∀ (fuel : ℕ) (res base exp m : ℤ),
    0 ≤ res → res < m → 0 ≤ base → base < m → 0 ≤ exp → exp.toNat ≤ fuel →
    (m - 1) ^ 2 < 2 ^ 63 →
    powerModLoop fuel res base exp m = res * base ^ exp.toNat % m := by
  intro fuel
  induction fuel with
  | zero =>
    intro res base exp m hr0 hrm _ _ _ hf _
    have h0 : exp.toNat = 0 := Nat.le_zero.mp hf
    simp [powerModLoop, h0, Int.emod_eq_of_lt hr0 hrm]
  | succ n ih =>
    intro res base exp m hr0 hrm hb0 hbm he hf hsq
    have hm0 : (0 : ℤ) < m := lt_of_le_of_lt hr0 hrm
    unfold powerModLoop
    split
    · rename_i hpos
      have hmul : ∀ u v : ℤ, 0 ≤ u → u < m → 0 ≤ v → v < m → wrap (u * v) = u * v := by
        intro u v hu0 hum hv0 hvm
        have huv0 : 0 ≤ u * v := mul_nonneg hu0 hv0
        have huv : u * v ≤ (m - 1) * (m - 1) :=
          mul_le_mul (by linarith) (by linarith) hv0 (by linarith)
        refine wrap_eq_self (by linarith) ?_
        have : (m - 1) * (m - 1) < 2 ^ 63 := by nlinarith [hsq]
        linarith
      rw [hmul base base hb0 hbm hb0 hbm]
      have hres2 : (if exp % 2 = 1 then wrap (res * base) % m else res) =
          (if exp % 2 = 1 then res * base % m else res) := by
        split
        · rw [hmul res base hr0 hrm hb0 hbm]
        · rfl
      rw [hres2]
      have hr20 : 0 ≤ (if exp % 2 = 1 then res * base % m else res) := by
        split
        · exact Int.emod_nonneg _ (ne_of_gt hm0)
        · exact hr0
      have hr2m : (if exp % 2 = 1 then res * base % m else res) < m := by
        split
        · exact Int.emod_lt_of_pos _ hm0
        · exact hrm
      have hb20 : 0 ≤ base * base % m := Int.emod_nonneg _ (ne_of_gt hm0)
      have hb2m : base * base % m < m := Int.emod_lt_of_pos _ hm0
      have he2 : 0 ≤ exp / 2 := Int.ediv_nonneg he (by norm_num)
      have hf2 : (exp / 2).toNat ≤ n := by omega
      rw [ih _ _ _ _ hr20 hr2m hb20 hb2m he2 hf2 hsq]
      rw [show (exp / 2).toNat = exp.toNat / 2 by omega]
      by_cases hodd : exp % 2 = 1
      · obtain ⟨j, hj1, hj2⟩ : ∃ j, exp.toNat / 2 = j ∧ exp.toNat = 2 * j + 1 :=
          ⟨exp.toNat / 2, rfl, by omega⟩
        rw [if_pos hodd, hj1, hj2]
        calc res * base % m * (base * base % m) ^ j % m
            = res * base * (base * base) ^ j % m := by
              rw [Int.mul_emod, Int.emod_emod_of_dvd _ dvd_rfl, ← int_pow_emod,
                ← Int.mul_emod]
          _ = res * base ^ (2 * j + 1) % m := by
              rw [pow_succ, pow_mul, sq]
              ring_nf
      · obtain ⟨j, hj1, hj2⟩ : ∃ j, exp.toNat / 2 = j ∧ exp.toNat = 2 * j :=
          ⟨exp.toNat / 2, rfl, by omega⟩
        rw [if_neg hodd, hj1, hj2]
        calc res * (base * base % m) ^ j % m
            = res * (base * base) ^ j % m := by
              rw [Int.mul_emod, ← int_pow_emod, ← Int.mul_emod]
          _ = res * base ^ (2 * j) % m := by
              rw [pow_mul, sq]
    · rename_i hnpos
      have h0 : exp.toNat = 0 := by omega
      simp [h0, Int.emod_eq_of_lt hr0 hrm]

/-- Correctness of `power_mod` for every modulus small enough that the
int64 products inside the loop cannot overflow. -/
theorem power_mod_eq (base exp m : ℤ) (he : 0 ≤ exp) (hm : 1 < m)
    (hsq : (m - 1) ^ 2 < 2 ^ 63) : power_mod base exp m = base ^ exp.toNat % m := by
  unfold power_mod
  have hm0 : (0 : ℤ) < m := by linarith
  rw [powerModLoop_eq exp.toNat 1 (base % m) exp m (by norm_num) hm
    (Int.emod_nonneg _ (ne_of_gt hm0)) (Int.emod_lt_of_pos _ hm0) he le_rfl hsq,
    one_mul, ← int_pow_emod]

/-! ## The glide loop is bounded by its fuel -/

/-- The step counter returned by the glide loop gains at most the fuel. -/
theorem glideLoop_le (start : ℤ) : ∀ (fuel : ℕ) (curr : ℤ) (steps : ℕ),
    glideLoop start curr steps fuel ≤ steps + fuel := by
  intro fuel
  induction fuel with
  | zero => intro curr steps; simp [glideLoop]
  | succ n ih =>
    intro curr steps
    unfold glideLoop
    split
    · dsimp only
      split
      all_goals split
      all_goals first
        | omega
        | exact le_trans (ih _ _) (by omega)
    · omega

/-- The glide value never exceeds the iteration cap 300. -/
theorem glide_le (start : ℤ) : glide start ≤ 300 :=
  glideLoop_le start 300 start 0

/-! ## Splitting the main loop of the analyzer into its two accumulators -/

/-- In natural numbers, the source conditional update of the running maximum
is the maximum. -/
theorem ite_lt_eq_max (t s : ℕ) : (if t < s then s else t) = max t s := by
  split <;> omega

/-- The fold of the loop body over any index/prime list decomposes into the
independent folds of the score accumulator and of the running maximum. -/
theorem analyze_foldl {α : Type} (fadd fmul fdiv : α → α → α) (fofInt : ℤ → α)
    (w : ℕ → α) (a b : ℤ) : ∀ (l : List (ℕ × ℕ)) (s : α) (t : ℕ),
    l.foldl (analyzeStep fadd fmul fdiv fofInt w a b) (s, t) =
      (l.foldl (fun acc ip =>
          fadd acc (fdiv (fmul (fofInt (ap a b (ip.2 : ℤ))) (w ip.1)) (fofInt (ip.2 : ℤ)))) s,
       l.foldl (fun acc ip => max acc (glide (Np a b (ip.2 : ℤ)))) t) := by
  intro l
  induction l with
  | nil => intro s t; rfl
  | cons hd tl ih =>
    intro s t
    simp only [List.foldl_cons]
    have hstep : analyzeStep fadd fmul fdiv fofInt w a b (s, t) hd =
        (fadd s (fdiv (fmul (fofInt (ap a b (hd.2 : ℤ))) (w hd.1)) (fofInt (hd.2 : ℤ))),
         max t (glide (Np a b (hd.2 : ℤ)))) := by
      simp only [analyzeStep, ite_lt_eq_max]
    rw [hstep]
    exact ih _ _

/-- Folding a function of the second components over an enumerated list is
folding over the list itself. -/
theorem foldl_enum_snd {α : Type} (f : α → ℕ → α) (l : List ℕ) (i : α) :
    l.enum.foldl (fun acc ip => f acc ip.2) i = l.foldl f i := by
  conv_rhs => rw [← List.enum_map_snd l]
  rw [List.foldl_map]

/-- A fold of `max` stays below any common upper bound of the seed and the
list elements. -/
theorem foldl_max_le : ∀ (l : List ℕ) (i c : ℕ), i ≤ c → (∀ x ∈ l, x ≤ c) →
    l.foldl max i ≤ c := by
  intro l
  induction l with
  | nil => intro i c h _; simpa using h
  | cons hd tl ih =>
    intro i c hi hall
    simp only [List.foldl_cons]
    exact ih _ _ (max_le hi (hall hd (by simp))) (fun x hx => hall x (by simp [hx]))

/-- The analyzer agrees with the pair of the two spec-level signatures, for
every input pair and every interpretation of the float operations. -/
theorem analyze_physics_eq_spec {α : Type} (fadd fmul fdiv : α → α → α)
    (fofInt : ℤ → α) (fzero : α) (w : ℕ → α) (a b : ℤ) :
    analyze_physics fadd fmul fdiv fofInt fzero w a b =
      analyzeSpec fadd fmul fdiv fofInt fzero w a b := by
  unfold analyze_physics analyzeSpec scoreSpec resistSpec
  rw [analyze_foldl]
  refine Prod.ext ?_ ?_
  · simp only [List.foldl_map]
  · simp only [List.foldl_map]
    exact foldl_enum_snd (fun acc p => max acc (glide (Np a b (p : ℤ)))) PRIMES 0

/-! ## Positivity of the local group order -/

/-- Every per-residue value produced after the remap is at least -1: it is
0, or the remapped -1, or a nonnegative `power_mod` result. -/
theorem legendreVal_ge_neg_one (a b p x : ℤ) (hp : 0 < p) :
    -1 ≤ legendreVal a b p x := by
  unfold legendreVal
  dsimp only
  split
  · norm_num
  · split
    · exact le_refl _
    · have h := power_mod_nonneg (fxVal a b x p) ((p - 1) / 2) p (ne_of_gt hp)
      linarith

/-- Lower bound for a left fold that adds per-element values each at
least -1: the seed drops by at most the list length. -/
theorem foldl_add_ge (v : ℕ → ℤ) : ∀ (l : List ℕ) (s : ℤ), (∀ x ∈ l, -1 ≤ v x) →
    s - l.length ≤ l.foldl (fun acc x => acc + v x) s := by
  intro l
  induction l with
  | nil => intro s _; simp
  | cons hd tl ih =>
    intro s hall
    simp only [List.foldl_cons, List.length_cons]
    have h1 := ih (s + v hd) (fun x hx => hall x (List.mem_cons_of_mem _ hx))
    have h2 : -1 ≤ v hd := hall hd (List.mem_cons_self _ _)
    push_cast
    push_cast at h1
    linarith

/-- The accumulated Legendre sum over the `p` residues is at least `-p`. -/
theorem ls_sum_ge (a b p : ℤ) (hp : 0 < p) : -p ≤ ls_sum a b p := by
  unfold ls_sum
  have h := foldl_add_ge (fun x => legendreVal a b p (x : ℤ)) (List.range p.toNat) 0
    (fun x _ => legendreVal_ge_neg_one a b p (x : ℤ) hp)
  rw [List.length_range, Int.toNat_of_nonneg hp.le] at h
  linarith

/-- The local group order computed by `analyze_physics` is at least 1 for
any positive modulus. -/
theorem Np_ge_one (a b p : ℤ) (hp : 0 < p) : 1 ≤ Np a b p := by
  have h := ls_sum_ge a b p hp
  unfold Np ap
  linarith

/-! ## Euler criterion, transported to the machine computation -/

/-- For a table-sized prime `p` and `0 < t < p`, the machine value
`power_mod(t, (p-1)//2, p)` is `1` or `p - 1`. -/
theorem power_mod_half_of_prime (p : ℕ) (hp : Nat.Prime p) (hple : p ≤ 2741)
    (t : ℤ) (ht0 : 0 < t) (htp : t < (p : ℤ)) :
    power_mod t (((p : ℤ) - 1) / 2) (p : ℤ) = 1 ∨
    power_mod t (((p : ℤ) - 1) / 2) (p : ℤ) = (p : ℤ) - 1 := by
  have hp2 : 2 ≤ p := hp.two_le
  rcases hp.eq_two_or_odd with h2 | hodd
  · subst h2
    left
    have he0 : (((2 : ℕ) : ℤ) - 1) / 2 = 0 := by norm_num
    rw [he0]
    rfl
  · have hp1 : (1 : ℤ) < (p : ℤ) := by exact_mod_cast hp2
    have he : (0 : ℤ) ≤ ((p : ℤ) - 1) / 2 := Int.ediv_nonneg (by linarith) (by norm_num)
    have hsq : ((p : ℤ) - 1) ^ 2 < 2 ^ 63 := by
      have hc : (p : ℤ) ≤ 2741 := by exact_mod_cast hple
      nlinarith
    have heq := power_mod_eq t (((p : ℤ) - 1) / 2) (p : ℤ) he hp1 hsq
    have het : ((((p : ℤ) - 1) / 2)).toNat = p / 2 := by omega
    rw [heq, het]
    haveI : Fact p.Prime := ⟨hp⟩
    have hu : ((t : ℤ) : ZMod p) ≠ 0 := by
      rw [Ne, ZMod.intCast_zmod_eq_zero_iff_dvd]
      intro hdvd
      have := Int.le_of_dvd ht0 hdvd
      linarith
    rcases ZMod.pow_div_two_eq_neg_one_or_one p hu with h1 | hm1
    · left
      have hcast : ((t ^ (p / 2) : ℤ) : ZMod p) = ((1 : ℤ) : ZMod p) := by
        push_cast
        exact h1
      have hmod : t ^ (p / 2) % (p : ℤ) = 1 % (p : ℤ) :=
        (ZMod.intCast_eq_intCast_iff _ _ _).mp hcast
      rw [hmod, Int.emod_eq_of_lt (by norm_num) hp1]
    · right
      have hcast : ((t ^ (p / 2) : ℤ) : ZMod p) = ((-1 : ℤ) : ZMod p) := by
        push_cast
        exact hm1
      have hmod : t ^ (p / 2) % (p : ℤ) = (-1) % (p : ℤ) :=
        (ZMod.intCast_eq_intCast_iff _ _ _).mp hcast
      have hneg : (-1) % (p : ℤ) = (p : ℤ) - 1 := by
        have h1' : ((p : ℤ) - 1) % (p : ℤ) = (-1 + (p : ℤ) * 1) % (p : ℤ) := by
          ring_nf
        rw [Int.add_mul_emod_self_left] at h1'
        rw [← h1', Int.emod_eq_of_lt (by linarith) (by linarith)]
      rw [hmod, hneg]

/-! ## The int64 cubic cannot overflow for mining-range coefficients -/

/-- For `|a|, |b| ≤ 10^12`, a modulus at most 2741 and a residue
`0 ≤ x < p`, every int64 intermediate of `(x*x*x + a*x + b) % p` stays in
range, so the machine value equals the exact value of the reduced cubic. -/
theorem fxVal_eq_exact (a b x : ℤ) (p : ℕ) (hple : p ≤ 2741)
    (ha : |a| ≤ 10 ^ 12) (hb : |b| ≤ 10 ^ 12) (hx0 : 0 ≤ x) (hxp : x < (p : ℤ)) :
    fxVal a b x (p : ℤ) = (x ^ 3 + a * x + b) % (p : ℤ) := by
  have hp' : (p : ℤ) ≤ 2741 := by exact_mod_cast hple
  have hx : x ≤ 2740 := by linarith
  have hxx0 : 0 ≤ x * x := mul_nonneg hx0 hx0
  have hxx : x * x ≤ 2740 * 2740 := mul_le_mul hx hx hx0 (by norm_num)
  have hxxx0 : 0 ≤ x * x * x := mul_nonneg hxx0 hx0
  have hxxx : x * x * x ≤ 2740 * 2740 * 2740 := mul_le_mul hxx hx hx0 (by norm_num)
  have hax : |a * x| ≤ 10 ^ 12 * 2740 := by
    rw [abs_mul]
    refine mul_le_mul ha ?_ (abs_nonneg x) (by norm_num)
    rw [abs_of_nonneg hx0]
    exact hx
  obtain ⟨hax1, hax2⟩ := abs_le.mp hax
  obtain ⟨hb1, hb2⟩ := abs_le.mp hb
  have e2 : (2740 : ℤ) * 2740 * 2740 = 20570824000 := by norm_num
  have e3 : (10 : ℤ) ^ 12 * 2740 = 2740000000000000 := by norm_num
  rw [e2] at hxxx
  rw [e3] at hax1 hax2
  unfold fxVal
  rw [wrap_eq_self (z := x * x) (by linarith) (by linarith),
    wrap_eq_self (z := x * x * x) (by linarith) (by linarith),
    wrap_eq_self (z := a * x) (by linarith) (by linarith),
    wrap_eq_self (z := x * x * x + a * x) (by linarith) (by linarith),
    wrap_eq_self (z := x * x * x + a * x + b) (by linarith) (by linarith)]
  have hcube : x * x * x = x ^ 3 := by ring
  rw [hcube]

/-! ## Claim theorems -/

/-- C1: for every pair of integers (A, B) and every interpretation of the
float64 operations and of the LOGS2 weight table, the analytic score
returned by analyze_physics is exactly the left fold, over the prime table
in ascending index order 0..399, of additions of `(ap_i * log2 p_i) / p_i`
starting from the zero value, where `ap_i = -ls_sum_i` is the negated sum
of remapped per-residue Legendre values.  The addition is an arbitrary
binary operation, in particular not assumed associative or commutative, so
the equality pins down the exact ascending order of accumulation of the
source loop. -/
theorem analytic_score_is_ordered_left_fold {α : Type} (fadd fmul fdiv : α → α → α)
    (fofInt : ℤ → α) (fzero : α) (w : ℕ → α) (a b : ℤ) :
    (analyze_physics fadd fmul fdiv fofInt fzero w a b).1 =
      (PRIMES.enum.map (fun ip =>
        fdiv (fmul (fofInt (ap a b (ip.2 : ℤ))) (w ip.1)) (fofInt (ip.2 : ℤ)))).foldl
        fadd fzero := by
  unfold analyze_physics
  rw [analyze_foldl]
  simp only [List.foldl_map]

/-- C2: for every pair of integers (A, B), the dynamic resistance returned
by analyze_physics equals the maximum (as the fold of `max` seeded with the
initial value 0 of `max_glide`) over the 400 table primes of the glide value
of `Np = p + 1 - ap`, where the glide loop halves an even value, maps an odd
value to `3*curr + 1`, and stops after any step at which the value drops
below `Np`, capped at 300 steps. -/
theorem dynamic_resistance_is_max_glide {α : Type} (fadd fmul fdiv : α → α → α)
    (fofInt : ℤ → α) (fzero : α) (w : ℕ → α) (a b : ℤ) :
    (analyze_physics fadd fmul fdiv fofInt fzero w a b).2 =
      (PRIMES.map (fun p => glide (Np a b (p : ℤ)))).foldl max 0 := by
  unfold analyze_physics
  rw [analyze_foldl]
  simp only [List.foldl_map]
  exact foldl_enum_snd (fun acc p => max acc (glide (Np a b (p : ℤ)))) PRIMES 0

/-- C6: the glide loop always terminates (the model is a total function by
construction, mirroring the hard cap of the source loop) with a step count
of at most 300, for every integer starting value; consequently the dynamic
resistance returned by analyze_physics is at most 300 for every input pair
and every interpretation of the float operations. -/
theorem glide_and_resistance_within_cap :
    (∀ start : ℤ, glide start ≤ 300) ∧
    ∀ {α : Type} (fadd fmul fdiv : α → α → α) (fofInt : ℤ → α) (fzero : α)
      (w : ℕ → α) (a b : ℤ),
      (analyze_physics fadd fmul fdiv fofInt fzero w a b).2 ≤ 300 := by
  refine ⟨glide_le, ?_⟩
  intro α fadd fmul fdiv fofInt fzero w a b
  rw [analyze_physics_eq_spec]
  show resistSpec a b ≤ 300
  unfold resistSpec
  refine foldl_max_le _ 0 300 (by norm_num) ?_
  intro y hy
  rw [List.mem_map] at hy
  obtain ⟨p, _, rfl⟩ := hy
  exact glide_le _

/-- C7: for every pair of integers (A, B) and every prime p of the table,
the local group order `Np = p + 1 - ap` computed inside analyze_physics is
at least 1: every remapped per-residue value is at least -1 and there are
exactly p residues, so `ls_sum ≥ -p` and `ap ≤ p`. -/
theorem local_group_order_positive (a b : ℤ) (p : ℕ) (hp : p ∈ PRIMES) :
    1 ≤ Np a b (p : ℤ) := by
  have h2 := (PRIMES_mem_bounds p hp).1
  have hpos : (0 : ℤ) < (p : ℤ) := by exact_mod_cast (by omega : 0 < p)
  exact Np_ge_one a b _ hpos

/-- Witness for C7 at the concrete input A = 0, B = 1, p = 2. -/
theorem local_group_order_positive_witness :
    (2 : ℕ) ∈ PRIMES ∧ 1 ≤ Np 0 1 ((2 : ℕ) : ℤ) :=
  ⟨by decide, local_group_order_positive 0 1 2 (by decide)⟩

/-- C4: for every prime p of the table, every pair of integers (A, B) and
every residue x in [0, p), the per-residue value used in `ls_sum` after the
remap lies in the set of values -1, 0, 1; equivalently, for nonzero fx the
machine value `power_mod(fx, (p-1)//2, p)` is 1 or p - 1 (Euler criterion,
transported through the exactness of `power_mod` for table-sized moduli). -/
theorem legendre_value_after_remap_in_range (a b : ℤ) (p : ℕ) (hmem : p ∈ PRIMES)
    (hp : Nat.Prime p) (x : ℕ) (hx : x < p) :
    (legendreVal a b (p : ℤ) (x : ℤ) = -1 ∨ legendreVal a b (p : ℤ) (x : ℤ) = 0 ∨
      legendreVal a b (p : ℤ) (x : ℤ) = 1) ∧
    (fxVal a b (x : ℤ) (p : ℤ) ≠ 0 →
      power_mod (fxVal a b (x : ℤ) (p : ℤ)) (((p : ℤ) - 1) / 2) (p : ℤ) = 1 ∨
      power_mod (fxVal a b (x : ℤ) (p : ℤ)) (((p : ℤ) - 1) / 2) (p : ℤ) = (p : ℤ) - 1) := by
  have hple := (PRIMES_mem_bounds p hmem).2
  have hp2 : 2 ≤ p := hp.two_le
  have hppos : (0 : ℤ) < (p : ℤ) := by exact_mod_cast (by omega : 0 < p)
  have hfx0 : 0 ≤ fxVal a b (x : ℤ) (p : ℤ) := by
    unfold fxVal
    exact Int.emod_nonneg _ (ne_of_gt hppos)
  have hfxp : fxVal a b (x : ℤ) (p : ℤ) < (p : ℤ) := by
    unfold fxVal
    exact Int.emod_lt_of_pos _ hppos
  by_cases hz : fxVal a b (x : ℤ) (p : ℤ) = 0
  · constructor
    · right; left
      unfold legendreVal
      dsimp only
      rw [if_pos hz]
    · intro hne
      exact absurd hz hne
  · have hfpos : 0 < fxVal a b (x : ℤ) (p : ℤ) := lt_of_le_of_ne hfx0 (Ne.symm hz)
    have heuler := power_mod_half_of_prime p hp hple _ hfpos hfxp
    constructor
    · unfold legendreVal
      dsimp only
      rw [if_neg hz]
      rcases heuler with h1 | hm1
      · rw [h1]
        split
        · left; rfl
        · right; right; rfl
      · rw [hm1, if_pos rfl]
        left; rfl
    · intro _
      exact heuler

/-- Witness for C4 at the concrete input A = 0, B = 1, p = 3, x = 1, where
fx = 2 is a nonresidue and the remapped value is -1. -/
theorem legendre_value_after_remap_in_range_witness :
    ((3 : ℕ) ∈ PRIMES ∧ Nat.Prime 3 ∧ (1 : ℕ) < 3) ∧
    ((legendreVal 0 1 ((3 : ℕ) : ℤ) ((1 : ℕ) : ℤ) = -1 ∨
      legendreVal 0 1 ((3 : ℕ) : ℤ) ((1 : ℕ) : ℤ) = 0 ∨
      legendreVal 0 1 ((3 : ℕ) : ℤ) ((1 : ℕ) : ℤ) = 1) ∧
     (fxVal 0 1 ((1 : ℕ) : ℤ) ((3 : ℕ) : ℤ) ≠ 0 →
       power_mod (fxVal 0 1 ((1 : ℕ) : ℤ) ((3 : ℕ) : ℤ)) ((((3 : ℕ) : ℤ) - 1) / 2)
           ((3 : ℕ) : ℤ) = 1 ∨
       power_mod (fxVal 0 1 ((1 : ℕ) : ℤ) ((3 : ℕ) : ℤ)) ((((3 : ℕ) : ℤ) - 1) / 2)
           ((3 : ℕ) : ℤ) = ((3 : ℕ) : ℤ) - 1)) :=
  ⟨⟨by decide, by decide, by decide⟩,
   legendre_value_after_remap_in_range 0 1 3 (by decide) (by decide) 1 (by decide)⟩

/-- C5: for coefficients bounded by 10^12 in absolute value, a table prime p
and a residue 0 ≤ x < p, the int64 evaluation of the unreduced cubic inside
analyze_physics never overflows, so the machine value fx equals the exact
value of (x^3 + A*x + B) mod p even though A and B are not reduced mod p
before the cubic is formed. -/
theorem fx_no_overflow_in_mining_range (a b x : ℤ) (p : ℕ) (hmem : p ∈ PRIMES)
    (ha : |a| ≤ 10 ^ 12) (hb : |b| ≤ 10 ^ 12) (hx0 : 0 ≤ x) (hxp : x < (p : ℤ)) :
    fxVal a b x (p : ℤ) = (x ^ 3 + a * x + b) % (p : ℤ) :=
  fxVal_eq_exact a b x p (PRIMES_mem_bounds p hmem).2 ha hb hx0 hxp

/-- Witness for C5 at the concrete input A = 10^12, B = -10^12, x = 5,
p = 2741 (the largest table prime). -/
theorem fx_no_overflow_in_mining_range_witness :
    ((2741 : ℕ) ∈ PRIMES ∧ |(10 ^ 12 : ℤ)| ≤ 10 ^ 12 ∧ |(-(10 ^ 12) : ℤ)| ≤ 10 ^ 12 ∧
      (0 : ℤ) ≤ 5 ∧ (5 : ℤ) < ((2741 : ℕ) : ℤ)) ∧
    fxVal (10 ^ 12) (-(10 ^ 12)) 5 ((2741 : ℕ) : ℤ) =
      ((5 : ℤ) ^ 3 + 10 ^ 12 * 5 + -(10 ^ 12)) % ((2741 : ℕ) : ℤ) :=
  ⟨⟨by decide, by decide, by decide, by decide, by decide⟩,
   fx_no_overflow_in_mining_range (10 ^ 12) (-(10 ^ 12)) 5 2741 (by decide) (by decide)
     (by decide) (by decide) (by decide)⟩

/-- C3 counterexample: for the in-range int64 inputs base = 2^32, e = 2 and
modulus m = 2^63 - 1 (which is greater than 1), the int64 product
`base * base` inside the loop wraps around, so `power_mod` returns 0 while
the exact value of base^e mod m is 2; the claimed identity
`power_mod(base, e, m) = base^e mod m` for every modulus m > 1 is false. -/
theorem power_mod_large_modulus_overflows :
    power_mod (2 ^ 32) 2 (2 ^ 63 - 1) = 0 ∧
    (2 ^ 32 : ℤ) ^ 2 % (2 ^ 63 - 1) = 2 ∧
    power_mod (2 ^ 32) 2 (2 ^ 63 - 1) ≠ (2 ^ 32 : ℤ) ^ 2 % (2 ^ 63 - 1) :=
  ⟨by decide, by decide, by decide⟩

/-- C3 (amended): for every integer base, every nonnegative exponent and
every modulus m with 1 < m and (m-1)^2 < 2^63 — which covers every prime of
the table — `power_mod` equals base^e mod m, lies in [0, m), returns 1 at
exponent 0, and is unchanged by first reducing the base mod m. -/
theorem power_mod_correct_below_overflow (base exp m : ℤ) (he : 0 ≤ exp) (hm : 1 < m)
    (hsq : (m - 1) ^ 2 < 2 ^ 63) :
    power_mod base exp m = base ^ exp.toNat % m ∧
    0 ≤ power_mod base exp m ∧ power_mod base exp m < m ∧
    power_mod base 0 m = 1 ∧
    power_mod (base % m) exp m = power_mod base exp m := by
  have hm0 : (0 : ℤ) < m := by linarith
  have heq := power_mod_eq base exp m he hm hsq
  refine ⟨heq, ?_, ?_, rfl, ?_⟩
  · rw [heq]
    exact Int.emod_nonneg _ (ne_of_gt hm0)
  · rw [heq]
    exact Int.emod_lt_of_pos _ hm0
  · unfold power_mod
    rw [Int.emod_emod_of_dvd _ dvd_rfl]

/-- Witness for the amended C3 at base = -5, e = 3, m = 7. -/
theorem power_mod_correct_below_overflow_witness :
    ((0 : ℤ) ≤ 3 ∧ (1 : ℤ) < 7 ∧ ((7 : ℤ) - 1) ^ 2 < 2 ^ 63) ∧
    (power_mod (-5) 3 7 = (-5 : ℤ) ^ (3 : ℤ).toNat % 7 ∧
     0 ≤ power_mod (-5) 3 7 ∧ power_mod (-5) 3 7 < 7 ∧
     power_mod (-5) 0 7 = 1 ∧
     power_mod ((-5) % 7) 3 7 = power_mod (-5) 3 7) :=
  ⟨⟨by decide, by decide, by decide⟩,
   power_mod_correct_below_overflow (-5) 3 7 (by decide) (by decide) (by decide)⟩

/-- C10: for every exponent at most 0 (zero or negative) the loop condition
`exp > 0` of `power_mod` fails at once, so the function returns exactly 1
for every base and every modulus (no exception, no divergence); in
particular `power_mod(base, 0, 1)` returns 1, which is not inside the
documented result range [0, modulus) when the modulus is 1. -/
theorem power_mod_nonpositive_exponent :
    (∀ base exp m : ℤ, exp ≤ 0 → power_mod base exp m = 1) ∧
    power_mod 7 0 1 = 1 ∧ ¬ power_mod 7 0 1 < 1 := by
  refine ⟨?_, rfl, by decide⟩
  intro base exp m hexp
  unfold power_mod
  rw [Int.toNat_of_nonpos hexp]
  rfl

/-- Witness for C10 at base = 5, e = -3, m = 9. -/
theorem power_mod_nonpositive_exponent_witness :
    (-3 : ℤ) ≤ 0 ∧ power_mod 5 (-3) 9 = 1 :=
  ⟨by decide, power_mod_nonpositive_exponent.1 5 (-3) 9 (by decide)⟩

/-- C8: the probe classification is a pure function of the pair
(score, glide) with strict threshold comparisons: high rank exactly when
score < -25 and glide > 65, otherwise low rank exactly when score > -10,
indeterminate in all remaining cases; in particular (-26, 70) is a
high-rank candidate and (-20, 90) is indeterminate. -/
theorem probe_classification_thresholds :
    (∀ (s : ℚ) (g : ℕ),
      (classify_probe s g = Classification.highRank ↔ s < -25 ∧ 65 < g) ∧
      (classify_probe s g = Classification.lowRank ↔ ¬(s < -25 ∧ 65 < g) ∧ -10 < s) ∧
      (classify_probe s g = Classification.indeterminate ↔
        ¬(s < -25 ∧ 65 < g) ∧ ¬(-10 < s))) ∧
    classify_probe (-26) 70 = Classification.highRank ∧
    classify_probe (-20) 90 = Classification.indeterminate := by
  refine ⟨?_, by decide, by decide⟩
  intro s g
  unfold classify_probe
  split_ifs with h1 h2 <;> simp_all

/-- C9: analyze_physics is a total deterministic function of the input pair
(A, B) (given the fixed prime table and an interpretation of the float
operations): the theorem holds for every pair of integers, including the
singular pairs with 4A^3 + 27B^2 = 0, and exhibits the result as a closed
formula in (A, B) — the pair of the two spec signatures — so no branch of
the computation examines the discriminant or any hidden state, and repeated
invocations on the same arguments give the same pair. -/
theorem analyze_physics_deterministic_total {α : Type} (fadd fmul fdiv : α → α → α)
    (fofInt : ℤ → α) (fzero : α) (w : ℕ → α) (a b : ℤ) :
    analyze_physics fadd fmul fdiv fofInt fzero w a b =
      analyzeSpec fadd fmul fdiv fofInt fzero w a b :=
  analyze_physics_eq_spec fadd fmul fdiv fofInt fzero w a b
